import Mathlib

set_option maxRecDepth 100000

/-!
Verification of the entity-resolution core of `src/main.py` (name
normalization, registry index construction, disambiguation and matching)
against its natural-language specification.

The Python code is shallowly embedded: dictionaries from the IBGE payload
become structures with `Option` fields (a missing or null nesting level is
`none`, matching the `m.get(key, {}) or {}` defensive access pattern),
the `defaultdict(list)` index becomes an insertion-ordered association
list, and the standard-library helpers the core calls
(`unicodedata.normalize("NFKD", ·)` + `unicodedata.combining`,
`str.lower`, `str.isalnum`, `str.isspace`, `str.split`,
`difflib.get_close_matches`) are embedded as executable Lean functions
faithful to their documented algorithms on the Latin-script inputs this
program processes (the NFKD/lower/alnum tables cover ASCII plus the
accented letters of Portuguese place names; similarity scores are exact
rationals where CPython uses floats).
-/

/-- A Python value handed to `normalize_name`: the code checks
`isinstance(name, str)` and returns `""` for any non-string, so the model
distinguishes strings from (a sample of) non-string values. -/
inductive PyVal where
  | str (s : String)
  | intV (n : Int)
  | noneV
  deriving DecidableEq

/- Combining marks produced by NFKD decomposition of the accented Latin
letters below (`unicodedata.combining` is nonzero exactly on these, within
the character set this model covers). -/

/-- U+0300 COMBINING GRAVE ACCENT -/
def markGrave : Char := Char.ofNat 0x300
/-- U+0301 COMBINING ACUTE ACCENT -/
def markAcute : Char := Char.ofNat 0x301
/-- U+0302 COMBINING CIRCUMFLEX ACCENT -/
def markCirc : Char := Char.ofNat 0x302
/-- U+0303 COMBINING TILDE -/
def markTilde : Char := Char.ofNat 0x303
/-- U+0308 COMBINING DIAERESIS -/
def markDiaer : Char := Char.ofNat 0x308
/-- U+0327 COMBINING CEDILLA -/
def markCedilla : Char := Char.ofNat 0x327

/-- The combining-mark code points of this model. -/
def combiningMarks : List Char :=
  [markGrave, markAcute, markCirc, markTilde, markDiaer, markCedilla]

/-- `unicodedata.combining(c) != 0`, restricted to the marks this model
produces. -/
def combining (c : Char) : Bool := combiningMarks.contains c

/-- NFKD decompositions of the accented Latin letters of Portuguese place
names (both cases): base letter followed by a combining mark. Characters
absent from the table decompose to themselves. -/
def nfkdTable : List (Char × List Char) :=
  [ ('á', ['a', markAcute]), ('à', ['a', markGrave]), ('â', ['a', markCirc]),
    ('ã', ['a', markTilde]), ('é', ['e', markAcute]), ('ê', ['e', markCirc]),
    ('í', ['i', markAcute]), ('ó', ['o', markAcute]), ('ô', ['o', markCirc]),
    ('õ', ['o', markTilde]), ('ú', ['u', markAcute]), ('ü', ['u', markDiaer]),
    ('ç', ['c', markCedilla]),
    ('Á', ['A', markAcute]), ('À', ['A', markGrave]), ('Â', ['A', markCirc]),
    ('Ã', ['A', markTilde]), ('É', ['E', markAcute]), ('Ê', ['E', markCirc]),
    ('Í', ['I', markAcute]), ('Ó', ['O', markAcute]), ('Ô', ['O', markCirc]),
    ('Õ', ['O', markTilde]), ('Ú', ['U', markAcute]), ('Ü', ['U', markDiaer]),
    ('Ç', ['C', markCedilla]) ]

/-- `unicodedata.normalize("NFKD", ·)` at one character. -/
def nfkdChar (c : Char) : List Char := (nfkdTable.lookup c).getD [c]

/-- `unicodedata.normalize("NFKD", ·)` over a string's characters
(the `"".join(...)` of the per-character decompositions). -/
def expandNFKD : List Char → List Char
  | [] => []
  | c :: cs => nfkdChar c ++ expandNFKD cs

/-- `str.lower` as a character table (after NFKD decomposition and mark
removal every letter this program sees is in this table's domain or
already lower case). -/
def lowerTable : List (Char × Char) :=
  [ ('A', 'a'), ('B', 'b'), ('C', 'c'), ('D', 'd'), ('E', 'e'), ('F', 'f'),
    ('G', 'g'), ('H', 'h'), ('I', 'i'), ('J', 'j'), ('K', 'k'), ('L', 'l'),
    ('M', 'm'), ('N', 'n'), ('O', 'o'), ('P', 'p'), ('Q', 'q'), ('R', 'r'),
    ('S', 's'), ('T', 't'), ('U', 'u'), ('V', 'v'), ('W', 'w'), ('X', 'x'),
    ('Y', 'y'), ('Z', 'z') ]

/-- `str.lower` at one character. -/
def lowerChar (c : Char) : Char := (lowerTable.lookup c).getD c

/-- `c.isalnum()` (ASCII letters and digits; accented letters have been
decomposed away before this predicate is applied). -/
def isAlnumCh (c : Char) : Bool :=
  (97 ≤ c.toNat && c.toNat ≤ 122) || (65 ≤ c.toNat && c.toNat ≤ 90) ||
    (48 ≤ c.toNat && c.toNat ≤ 57)

/-- `c.isspace()` (the ASCII whitespace characters). -/
def isSpaceCh (c : Char) : Bool :=
  c.toNat = 32 || c.toNat = 9 || c.toNat = 10 || c.toNat = 11 ||
    c.toNat = 12 || c.toNat = 13

/-- `str.split()` with no separator: split on runs of whitespace,
dropping empty pieces. -/
def splitWs : List Char → List (List Char)
  | [] => []
  | [c] => if isSpaceCh c then [] else [[c]]
  | c :: d :: cs =>
    if isSpaceCh c then splitWs (d :: cs)
    else if isSpaceCh d then [c] :: splitWs cs
    else
      match splitWs (d :: cs) with
      | [] => [[c]]
      | w :: ws => (c :: w) :: ws

/-- `" ".join(words)`. -/
def joinWords : List (List Char) → List Char
  | [] => []
  | [w] => w
  | w :: ws => w ++ ' ' :: joinWords ws

/-- The body of `normalize_name` on an actual string, at the level of
character lists: NFKD-decompose, drop combining marks, lower-case, keep
only alphanumerics and whitespace, collapse whitespace runs and trim. -/
def normChars (cs : List Char) : List Char :=
  joinWords (splitWs
    ((((expandNFKD cs).filter (fun c => !combining c)).map lowerChar).filter
      (fun c => isAlnumCh c || isSpaceCh c)))

/-- `normalize_name` on a string argument. -/
def normalizeStr (s : String) : String := String.mk (normChars s.data)

/-- `normalize_name` (src/main.py:54-89): non-strings normalize to `""`. -/
def normalize_name : PyVal → String
  | .str s => normalizeStr s
  | _ => ""

example : normalizeStr "São Gonçalo" = "sao goncalo" := by decide
example : normalizeStr "Sao Goncalo" = "sao goncalo" := by decide
example : normalizeStr "  Santo   André!! " = "santo andre" := by decide
example : normalize_name (.intV 7) = "" := by rfl

/-! ## Data model: the IBGE municipality payload

One entry of the registry snapshot, typed after the JSON shape the code
reads: `{id, nome, microrregiao: {mesorregiao: {UF: {sigla, regiao:
{nome}}}}}`. Every nesting level is optional; `none` stands for a missing
or null level, which the code's `x.get(k, {}) or {}` chains resolve to an
empty dictionary. -/

structure Regiao where
  nome : Option String
  deriving DecidableEq

structure Uf where
  sigla : Option String
  regiao : Option Regiao
  deriving DecidableEq

structure Mesorregiao where
  UF : Option Uf
  deriving DecidableEq

structure Microrregiao where
  mesorregiao : Option Mesorregiao
  deriving DecidableEq

structure Municipio where
  id : Option Nat
  nome : Option String
  microrregiao : Option Microrregiao
  deriving DecidableEq

/-- The empty dictionary `{}` the matcher returns alongside
`"NAO_ENCONTRADO"`. -/
def emptyMuni : Municipio := ⟨none, none, none⟩

/-- The region-name access chain
`m.get("microrregiao", {}) or {} → ... → regiao.get("nome", "")`
(src/main.py:130-134 and 302-308): every missing level yields `""`. -/
def regiaoNome (m : Municipio) : String :=
  match m.microrregiao with
  | none => ""
  | some mic =>
    match mic.mesorregiao with
    | none => ""
    | some meso =>
      match meso.UF with
      | none => ""
      | some uf =>
        match uf.regiao with
        | none => ""
        | some r => r.nome.getD ""

/-- The normalized key a municipality is indexed under:
`normalize_name(m.get("nome", ""))` (src/main.py:111-112). -/
def normKey (m : Municipio) : String := normalizeStr (m.nome.getD "")

/-! ## difflib: `SequenceMatcher.ratio` and `get_close_matches`

`get_close_matches(word, possibilities, n, cutoff)` keeps every candidate
whose `SequenceMatcher(None, candidate, word).ratio()` clears the cutoff
and returns the top `n` by `(ratio, candidate)` descending — this is
`heapq.nlargest` on `(score, x)` pairs, i.e. a descending sort of the
pairs. `ratio` is `2*M/T`: `T` the combined length, `M` the total size of
the matching blocks found by recursively taking the longest common
contiguous block (leftmost in the first string, then in the second, among
those of maximal size) and recursing on the left and right remainders.
Scores are modeled as exact rationals (CPython compares IEEE doubles;
the two agree at the magnitudes a name comparison produces). -/

/-- Length of the longest common prefix of two character lists. -/
def commonLen : List Char → List Char → Nat
  | a :: as, b :: bs => if a = b then commonLen as bs + 1 else 0
  | _, _ => 0

/-- `SequenceMatcher.find_longest_match` over whole strings: the start
position in `a`, start position in `b`, and size of the longest common
contiguous block, choosing among maximal blocks the one starting earliest
in `a` and then earliest in `b` (`(0, 0, 0)` when there is none). -/
def findLongestMatch (a b : List Char) : Nat × Nat × Nat :=
  ((List.range a.length).flatMap (fun i => (List.range b.length).map (fun j => (i, j)))).foldl
    (fun best ij =>
      let k := commonLen (a.drop ij.1) (b.drop ij.2)
      if best.2.2 < k then (ij.1, ij.2, k) else best)
    (0, 0, 0)

/-- The total size of `get_matching_blocks`: recursive longest-block
search. `fuel` bounds the recursion depth; each recursive call strictly
shrinks the first list, so any `fuel ≥ a.length` computes the true value
(`matchingTotalF_congr` below). -/
def matchingTotalF : Nat → List Char → List Char → Nat
  | 0, _, _ => 0
  | fuel + 1, a, b =>
    match findLongestMatch a b with
    | (i, j, k) =>
      if k = 0 then 0
      else
        matchingTotalF fuel (a.take i) (b.take j) + k +
          matchingTotalF fuel (a.drop (i + k)) (b.drop (j + k))

/-- `M`: the total length of matching blocks between `a` and `b`. -/
def matchingTotal (a b : List Char) : Nat := matchingTotalF a.length a b

/-- `SequenceMatcher(None, a, b).ratio() = 2*M/T` (`1.0` when both
strings are empty, as in `difflib._calculate_ratio`). -/
def simRatio (a b : String) : Rat :=
  if a.length + b.length = 0 then 1
  else mkRat (2 * (matchingTotal a.data b.data : Int)) (a.length + b.length)

/-- The script's fuzzy-match cutoff, `cutoff=0.75` (src/main.py:172). -/
def fuzzyCutoff : Rat := mkRat 3 4

example : matchingTotal "curitiba".data "curitba".data = 7 := by decide
example : simRatio "curitiba" "curitba" = mkRat 14 15 := by decide
example : fuzzyCutoff ≤ simRatio "curitiba" "curitba" := by decide
example : ¬ fuzzyCutoff ≤ simRatio "curitiba" "rio" := by decide

/-- Python's string comparison: lexicographic by code point. -/
def lexLe : List Char → List Char → Bool
  | [], _ => true
  | _ :: _, [] => false
  | a :: as, b :: bs =>
    if a.toNat < b.toNat then true
    else if b.toNat < a.toNat then false
    else lexLe as bs

/-- The descending order `heapq.nlargest` uses on `(score, candidate)`
pairs: larger score first, ties by larger candidate string first. -/
def keyGE (p q : Rat × String) : Prop :=
  q.1 < p.1 ∨ (p.1 = q.1 ∧ lexLe q.2.data p.2.data = true)

instance : DecidableRel keyGE := fun p q =>
  inferInstanceAs (Decidable (q.1 < p.1 ∨ (p.1 = q.1 ∧ lexLe q.2.data p.2.data = true)))

/-- `difflib.get_close_matches(word, possibilities, n, cutoff)`:
keep the candidates whose ratio against `word` clears `cutoff`, sort the
`(score, candidate)` pairs descending, return the first `n` candidates. -/
def getCloseMatches (word : String) (possibilities : List String) (n : Nat)
    (cutoff : Rat) : List String :=
  (((List.insertionSort keyGE
      (possibilities.filterMap (fun x =>
        if cutoff ≤ simRatio x word then some (simRatio x word, x) else none))).take
    n).map (fun p => p.2))

example : getCloseMatches "curitba" ["curitiba", "rio de janeiro"] 3 fuzzyCutoff
    = ["curitiba"] := by decide

/-! ## The registry index (`IbgeIndex`, src/main.py:92-188) -/

/-- `self.name_to_municipios[norm].append(m)` on a `defaultdict(list)`:
append to the key's group if the key exists, else add the key at the end
(Python dictionaries preserve key insertion order). -/
def addToGroups (gs : List (String × List Municipio)) (k : String) (m : Municipio) :
    List (String × List Municipio) :=
  match gs with
  | [] => [(k, [m])]
  | (k', l) :: rest =>
    if k' = k then (k', l ++ [m]) :: rest else (k', l) :: addToGroups rest k m

/-- The grouping loop of `IbgeIndex.__init__` (src/main.py:110-114). -/
def buildGroups (municipios : List Municipio) : List (String × List Municipio) :=
  municipios.foldl (fun gs m => addToGroups gs (normKey m) m) []

/-- `list(set(...))` keeping first occurrences (src/main.py:117). CPython's
set iteration order is arbitrary; the behavior verified below (membership,
and the score-ordered candidate selection) does not depend on which order
the model picks. -/
def dedupFirst (seen : List String) : List String → List String
  | [] => []
  | x :: xs =>
    if seen.contains x then dedupFirst seen xs else x :: dedupFirst (x :: seen) xs

/-- The in-memory index: the raw municipality list, the normalized-name
groups (insertion-ordered, as a `defaultdict(list)`), and the deduplicated
normalized-name candidate pool. -/
structure IbgeIndex where
  municipios : List Municipio
  name_to_municipios : List (String × List Municipio)
  normalized_names : List String
  deriving DecidableEq

/-- `IbgeIndex.__init__` (src/main.py:98-117). -/
def IbgeIndex.init (municipios : List Municipio) : IbgeIndex :=
  { municipios := municipios
    name_to_municipios := buildGroups municipios
    normalized_names := dedupFirst [] (municipios.map normKey) }

/-- `IbgeIndex._choose_preferred_municipio` (src/main.py:119-142): the
first record of the list whose resolved region name is `"Sudeste"`
(the preferred region; the spec's English gloss is "Southeast"), else the
first record. A record whose location hierarchy is missing at any level
resolves to region `""` and is skipped. (On `[]` the Python code would
raise `IndexError` at `lista[0]`; the model totalizes with `emptyMuni`,
and no caller passes an empty group.) -/
def choose_preferred_municipio (lista : List Municipio) : Municipio :=
  match lista.find? (fun m => regiaoNome m == "Sudeste") with
  | some m => m
  | none => lista.headD emptyMuni

/-- `IbgeIndex.match` (src/main.py:144-188), with the index state it
leaves behind as the second component: subscripting the `defaultdict`
with a key it does not hold (`self.name_to_municipios[best]`,
src/main.py:180) would insert that key with an empty group, so the
post-state is part of the model. Status `"OK"` is the spec's `FOUND`,
`"NAO_ENCONTRADO"` its `NOT_FOUND`. -/
def IbgeIndex.match (idx : IbgeIndex) (municipio_input : String) :
    (String × Municipio) × IbgeIndex :=
  match List.lookup (normalizeStr municipio_input) idx.name_to_municipios with
  | some lista =>
    if lista.length = 1 then (("OK", lista.headD emptyMuni), idx)
    else (("OK", choose_preferred_municipio lista), idx)
  | none =>
    match getCloseMatches (normalizeStr municipio_input) idx.normalized_names 3 fuzzyCutoff with
    | [] => (("NAO_ENCONTRADO", emptyMuni), idx)
    | best :: _ =>
      match List.lookup best idx.name_to_municipios with
      | some lista =>
        if lista.length = 1 then (("OK", lista.headD emptyMuni), idx)
        else (("NAO_ENCONTRADO", emptyMuni), idx)
      | none =>
        (("NAO_ENCONTRADO", emptyMuni),
          ⟨idx.municipios, idx.name_to_municipios ++ [(best, [])], idx.normalized_names⟩)

/-! Sample records used by the concrete witnesses and counterexamples. -/

/-- Curitiba (region Sul). -/
def curitibaRec : Municipio :=
  ⟨some 4106902, some "Curitiba",
    some ⟨some ⟨some ⟨some "PR", some ⟨some "Sul"⟩⟩⟩⟩⟩

/-- Santo André in the preferred region (Sudeste / "Southeast"). -/
def saSudeste : Municipio :=
  ⟨some 3547809, some "Santo André",
    some ⟨some ⟨some ⟨some "SP", some ⟨some "Sudeste"⟩⟩⟩⟩⟩

/-- A second Santo André, in region Sul ("South"). -/
def saSul : Municipio :=
  ⟨some 4216354, some "Santo André",
    some ⟨some ⟨some ⟨some "SC", some ⟨some "Sul"⟩⟩⟩⟩⟩

example : ((IbgeIndex.init [curitibaRec]).match "CURITIBA").1 = ("OK", curitibaRec) := by
  decide
example : ((IbgeIndex.init [curitibaRec]).match "Curitba").1 = ("OK", curitibaRec) := by
  decide
example : ((IbgeIndex.init [curitibaRec]).match "Rio").1 = ("NAO_ENCONTRADO", emptyMuni) := by
  decide
example : ((IbgeIndex.init [saSudeste, saSul]).match "Santo André").1 = ("OK", saSudeste) := by
  decide
example : ((IbgeIndex.init [saSul, saSudeste]).match "Santo André").1 = ("OK", saSudeste) := by
  decide
example : ((IbgeIndex.init [saSul, saSudeste]).match "Santo Andree").1
    = ("NAO_ENCONTRADO", emptyMuni) := by decide

/-! ## Association-list and character-table lemmas -/

theorem lookup_mem_of_eq_some {β : Type} {tbl : List (Char × β)} {c : Char} {v : β}
    (h : tbl.lookup c = some v) : (c, v) ∈ tbl := by
  obtain ⟨l₁, l₂, rfl, -⟩ := List.lookup_eq_some_iff.mp h
  exact List.mem_append_right _ (List.mem_cons_self _ _)

theorem lookup_eq_none_of_keys {β : Type} {tbl : List (Char × β)} {c : Char}
    (h : ∀ p ∈ tbl, p.1 ≠ c) : tbl.lookup c = none := by
  refine List.lookup_eq_none_iff.mpr fun p hp => ?_
  simpa [bne_iff_ne] using fun hc => h p hp hc.symm

/-- Characters this model treats as alphanumeric are plain ASCII, hence
outside every accent/combining table. -/
theorem nfkdChar_of_alnum {c : Char} (h : isAlnumCh c = true) : nfkdChar c = [c] := by
  have hkeys : ∀ p ∈ nfkdTable, 191 < p.1.toNat := by decide
  have hne : ∀ p ∈ nfkdTable, p.1 ≠ c := by
    intro p hp he
    have h1 := hkeys p hp
    have h2 : c.toNat ≤ 122 := by
      simp [isAlnumCh] at h
      omega
    rw [he] at h1
    omega
  simp [nfkdChar, lookup_eq_none_of_keys hne]

theorem combining_of_alnum {c : Char} (h : isAlnumCh c = true) : combining c = false := by
  by_contra hc
  have hmem : c ∈ combiningMarks := by
    have := Bool.not_eq_false _ |>.mp hc
    simpa [combining, List.elem_iff] using this
  have hbig : ∀ d ∈ combiningMarks, 191 < d.toNat := by decide
  have h1 := hbig c hmem
  have h2 : c.toNat ≤ 122 := by
    simp [isAlnumCh] at h
    omega
  omega

theorem isSpaceCh_of_alnum {c : Char} (h : isAlnumCh c = true) : isSpaceCh c = false := by
  simp [isAlnumCh] at h
  simp [isSpaceCh]
  omega

/-- `lowerChar` is idempotent: its values ('a'..'z') are not among its
keys ('A'..'Z'). -/
theorem lowerChar_idem (c : Char) : lowerChar (lowerChar c) = lowerChar c := by
  cases h : lowerTable.lookup c with
  | none => simp [lowerChar, h]
  | some v =>
    have hv : (c, v) ∈ lowerTable := lookup_mem_of_eq_some h
    have hvals : ∀ p ∈ lowerTable, ∀ q ∈ lowerTable, q.1 ≠ p.2 := by decide
    have : lowerTable.lookup v = none :=
      lookup_eq_none_of_keys fun q hq => hvals (c, v) hv q hq
    simp [lowerChar, h, this]


/-! ## Words produced by `splitWs` / `joinWords` -/

/-- Every word `str.split()` produces is nonempty, whitespace-free, and
drawn from the input's characters. -/
theorem splitWs_words : ∀ cs : List Char, ∀ w ∈ splitWs cs,
    w ≠ [] ∧ ∀ c ∈ w, c ∈ cs ∧ isSpaceCh c = false
  | [] => by simp [splitWs]
  | [c] => by
    by_cases hc : isSpaceCh c
    · simp [splitWs, hc]
    · simp [splitWs, hc]
  | c :: d :: cs => by
    intro w hw
    by_cases hc : isSpaceCh c
    · rw [splitWs, if_pos hc] at hw
      obtain ⟨hne, hall⟩ := splitWs_words (d :: cs) w hw
      exact ⟨hne, fun x hx =>
        ⟨List.mem_cons_of_mem _ ((hall x hx).1), (hall x hx).2⟩⟩
    · by_cases hd : isSpaceCh d
      · rw [splitWs, if_neg hc, if_pos hd] at hw
        rcases List.mem_cons.mp hw with rfl | hw'
        · refine ⟨by simp, ?_⟩
          intro x hx
          rcases List.mem_singleton.mp hx with rfl
          exact ⟨List.mem_cons_self _ _, by simpa using hc⟩
        · obtain ⟨hne, hall⟩ := splitWs_words cs w hw'
          exact ⟨hne, fun x hx =>
            ⟨List.mem_cons_of_mem _ (List.mem_cons_of_mem _ ((hall x hx).1)),
              (hall x hx).2⟩⟩
      · rw [splitWs, if_neg hc, if_neg hd] at hw
        cases hs : splitWs (d :: cs) with
        | nil =>
          rw [hs] at hw
          rcases List.mem_singleton.mp hw with rfl
          refine ⟨by simp, ?_⟩
          intro x hx
          rcases List.mem_singleton.mp hx with rfl
          exact ⟨List.mem_cons_self _ _, by simpa using hc⟩
        | cons w0 ws0 =>
          rw [hs] at hw
          rcases List.mem_cons.mp hw with rfl | hw'
          · have h0 := splitWs_words (d :: cs) w0 (hs ▸ List.mem_cons_self _ _)
            refine ⟨by simp, ?_⟩
            intro x hx
            rcases List.mem_cons.mp hx with rfl | hx'
            · exact ⟨List.mem_cons_self _ _, by simpa using hc⟩
            · exact ⟨List.mem_cons_of_mem _ ((h0.2 x hx').1), (h0.2 x hx').2⟩
          · have h0 := splitWs_words (d :: cs) w (hs ▸ List.mem_cons_of_mem _ hw')
            exact ⟨h0.1, fun x hx =>
              ⟨List.mem_cons_of_mem _ ((h0.2 x hx).1), (h0.2 x hx).2⟩⟩

/-- A single nonempty whitespace-free word splits to itself. -/
theorem splitWs_single : ∀ w : List Char, w ≠ [] →
    (∀ c ∈ w, isSpaceCh c = false) → splitWs w = [w]
  | [], h, _ => absurd rfl h
  | [c], _, hns => by
    simp [splitWs, hns c (List.mem_singleton.mpr rfl)]
  | c :: d :: cs, _, hns => by
    have hc : isSpaceCh c = false := hns c (List.mem_cons_self _ _)
    have hd : isSpaceCh d = false := hns d (List.mem_cons_of_mem _ (List.mem_cons_self _ _))
    have ih : splitWs (d :: cs) = [d :: cs] :=
      splitWs_single (d :: cs) (by simp) fun x hx => hns x (List.mem_cons_of_mem _ hx)
    rw [splitWs, if_neg (by simp [hc]), if_neg (by simp [hd]), ih]

/-- Prepending a nonempty whitespace-free word and a space splits off that
word. -/
theorem splitWs_append : ∀ (w rest : List Char), w ≠ [] →
    (∀ c ∈ w, isSpaceCh c = false) → splitWs (w ++ ' ' :: rest) = w :: splitWs rest
  | [], _, h, _ => absurd rfl h
  | [c], rest, _, hns => by
    have hc : isSpaceCh c = false := hns c (List.mem_singleton.mpr rfl)
    have hsp : isSpaceCh ' ' = true := by decide
    simp only [List.singleton_append]
    rw [splitWs, if_neg (by simp [hc]), if_pos hsp]
  | c :: d :: cs, rest, _, hns => by
    have hc : isSpaceCh c = false := hns c (List.mem_cons_self _ _)
    have hd : isSpaceCh d = false := hns d (List.mem_cons_of_mem _ (List.mem_cons_self _ _))
    have ih : splitWs ((d :: cs) ++ ' ' :: rest) = (d :: cs) :: splitWs rest :=
      splitWs_append (d :: cs) rest (by simp) fun x hx => hns x (List.mem_cons_of_mem _ hx)
    simp only [List.cons_append] at ih ⊢
    rw [splitWs, if_neg (by simp [hc]), if_neg (by simp [hd]), ih]

/-- Splitting the space-join of nonempty whitespace-free words recovers
them. -/
theorem splitWs_joinWords : ∀ ws : List (List Char),
    (∀ w ∈ ws, w ≠ [] ∧ ∀ c ∈ w, isSpaceCh c = false) →
    splitWs (joinWords ws) = ws := by
  intro ws
  induction ws with
  | nil => intro _; rfl
  | cons w tail ih =>
    intro h
    cases tail with
    | nil =>
      have hw := h w (List.mem_cons_self _ _)
      simpa [joinWords] using splitWs_single w hw.1 hw.2
    | cons w' ws' =>
      have hw := h w (List.mem_cons_self _ _)
      have : joinWords (w :: w' :: ws') = w ++ ' ' :: joinWords (w' :: ws') := rfl
      rw [this, splitWs_append w _ hw.1 hw.2,
        ih fun x hx => h x (List.mem_cons_of_mem _ hx)]

/-- Characters of a space-join are spaces or characters of the words. -/
theorem mem_joinWords : ∀ ws : List (List Char), ∀ c ∈ joinWords ws,
    c = ' ' ∨ ∃ w ∈ ws, c ∈ w
  | [] => by simp [joinWords]
  | [w] => by
    intro c hc
    exact Or.inr ⟨w, List.mem_singleton.mpr rfl, by simpa [joinWords] using hc⟩
  | w :: w' :: ws => by
    intro c hc
    have : joinWords (w :: w' :: ws) = w ++ ' ' :: joinWords (w' :: ws) := rfl
    rw [this] at hc
    rcases List.mem_append.mp hc with hw | htail
    · exact Or.inr ⟨w, List.mem_cons_self _ _, hw⟩
    · rcases List.mem_cons.mp htail with rfl | hrest
      · exact Or.inl rfl
      · rcases mem_joinWords (w' :: ws) c hrest with h | ⟨w0, hw0, hcw0⟩
        · exact Or.inl h
        · exact Or.inr ⟨w0, List.mem_cons_of_mem _ hw0, hcw0⟩

theorem expandNFKD_fixed {l : List Char} (h : ∀ c ∈ l, nfkdChar c = [c]) :
    expandNFKD l = l := by
  induction l with
  | nil => rfl
  | cons c cs ih =>
    rw [expandNFKD, h c (List.mem_cons_self _ _),
      ih fun x hx => h x (List.mem_cons_of_mem _ hx)]
    rfl

theorem map_fixed {l : List Char} {f : Char → Char} (h : ∀ c ∈ l, f c = c) :
    l.map f = l := by
  induction l with
  | nil => rfl
  | cons c cs ih =>
    rw [List.map_cons, h c (List.mem_cons_self _ _),
      ih fun x hx => h x (List.mem_cons_of_mem _ hx)]

/-- A space-join of nonempty words of lower-case-fixed alphanumeric
characters is a fixed point of the normalization pipeline. -/
theorem normChars_joinWords (ws : List (List Char))
    (h : ∀ w ∈ ws, w ≠ [] ∧ ∀ c ∈ w, isAlnumCh c = true ∧ lowerChar c = c) :
    normChars (joinWords ws) = joinWords ws := by
  have hchars : ∀ c ∈ joinWords ws,
      nfkdChar c = [c] ∧ combining c = false ∧ lowerChar c = c ∧
        (isAlnumCh c || isSpaceCh c) = true := by
    intro c hc
    rcases mem_joinWords ws c hc with rfl | ⟨w, hw, hcw⟩
    · exact ⟨by decide, by decide, by decide, by decide⟩
    · obtain ⟨halnum, hlow⟩ := (h w hw).2 c hcw
      exact ⟨nfkdChar_of_alnum halnum, combining_of_alnum halnum, hlow, by simp [halnum]⟩
  have e1 : expandNFKD (joinWords ws) = joinWords ws :=
    expandNFKD_fixed fun c hc => (hchars c hc).1
  have e2 : (joinWords ws).filter (fun c => !combining c) = joinWords ws :=
    List.filter_eq_self.mpr fun c hc => by simp [(hchars c hc).2.1]
  have e3 : (joinWords ws).map lowerChar = joinWords ws :=
    map_fixed fun c hc => (hchars c hc).2.2.1
  have e4 : (joinWords ws).filter (fun c => isAlnumCh c || isSpaceCh c) = joinWords ws :=
    List.filter_eq_self.mpr fun c hc => (hchars c hc).2.2.2
  rw [normChars, e1, e2, e3, e4]
  rw [splitWs_joinWords ws fun w hw =>
    ⟨(h w hw).1, fun c hc => isSpaceCh_of_alnum ((h w hw).2 c hc).1⟩]

theorem normChars_idem (cs : List Char) : normChars (normChars cs) = normChars cs := by
  have hwords := splitWs_words
    ((((expandNFKD cs).filter fun c => !combining c).map lowerChar).filter
      fun c => isAlnumCh c || isSpaceCh c)
  refine normChars_joinWords _ fun w hw => ⟨(hwords w hw).1, fun c hc => ?_⟩
  obtain ⟨hmem, hns⟩ := (hwords w hw).2 c hc
  have hfil := List.mem_filter.mp hmem
  have halnum : isAlnumCh c = true := by
    rcases Bool.or_eq_true_iff.mp hfil.2 with h | h
    · exact h
    · rw [hns] at h
      cases h
  have hlow : lowerChar c = c := by
    rcases List.mem_map.mp hfil.1 with ⟨d, -, rfl⟩
    exact lowerChar_idem d
  exact ⟨halnum, hlow⟩

/-- Claim C7: `normalize` is idempotent — for every input `x`,
`normalize(normalize(x)) == normalize(x)` (the inner result, a string, is
normalized again as a string). -/
theorem normalize_name_idempotent (v : PyVal) :
    normalize_name (PyVal.str (normalize_name v)) = normalize_name v := by
  cases v with
  | str s => exact congrArg String.mk (normChars_idem s.data)
  | intV n => rfl
  | noneV => rfl

/-- Claim C6: `normalize` returns the empty string on every non-string
input without raising, and on strings applies, in order, Unicode
decomposition, combining-mark removal, lower-casing, the
alphanumeric-or-whitespace filter, and whitespace collapsing/trimming;
in particular both spellings of São Gonçalo normalize to
`"sao goncalo"`. -/
theorem normalize_name_spec :
    (∀ n : Int, normalize_name (PyVal.intV n) = "") ∧
    normalize_name PyVal.noneV = "" ∧
    (∀ s : String, normalize_name (PyVal.str s) = String.mk (joinWords (splitWs
      ((((expandNFKD s.data).filter fun c => !combining c).map lowerChar).filter
        fun c => isAlnumCh c || isSpaceCh c)))) ∧
    normalize_name (PyVal.str "São Gonçalo") = "sao goncalo" ∧
    normalize_name (PyVal.str "Sao Goncalo") = "sao goncalo" :=
  ⟨fun _ => rfl, rfl, fun _ => rfl, by decide, by decide⟩

/-- Claim C3: on a nonempty list the Disambiguator returns the first
record in list order whose resolved region name is the preferred region
(`"Sudeste"`; records with a missing or malformed hierarchy resolve to
`""` and are skipped), and when no record resolves to the preferred
region it returns the first record of the list. -/
theorem choose_preferred_spec (l1 l2 lista : List Municipio) (m : Municipio) :
    ((∀ x ∈ l1, regiaoNome x ≠ "Sudeste") → regiaoNome m = "Sudeste" →
      choose_preferred_municipio (l1 ++ m :: l2) = m) ∧
    (∀ h : lista ≠ [], (∀ x ∈ lista, regiaoNome x ≠ "Sudeste") →
      choose_preferred_municipio lista = lista.head h) := by
  constructor
  · intro hnone hm
    have hfind : (l1 ++ m :: l2).find? (fun x => regiaoNome x == "Sudeste") = some m := by
      rw [List.find?_append, List.find?_eq_none.mpr fun x hx => by simp [hnone x hx],
        Option.none_or, List.find?_cons_of_pos _ (by simp [hm])]
    rw [choose_preferred_municipio, hfind]
  · intro h hnone
    have hfind : lista.find? (fun x => regiaoNome x == "Sudeste") = none :=
      List.find?_eq_none.mpr fun x hx => by simp [hnone x hx]
    rw [choose_preferred_municipio, hfind]
    cases lista with
    | nil => exact absurd rfl h
    | cons x xs => rfl

/-- The Disambiguator picks an element of its (nonempty) input. -/
theorem choose_preferred_mem {lista : List Municipio} (h : lista ≠ []) :
    choose_preferred_municipio lista ∈ lista := by
  rw [choose_preferred_municipio]
  cases hfind : lista.find? (fun x => regiaoNome x == "Sudeste") with
  | some m => exact List.mem_of_find?_eq_some hfind
  | none =>
    cases lista with
    | nil => exact absurd rfl h
    | cons x xs => exact List.mem_cons_self _ _

/-! ## Index-construction lemmas -/

theorem lookup_addToGroups (gs : List (String × List Municipio)) (k : String)
    (m : Municipio) (k' : String) :
    (addToGroups gs k m).lookup k' =
      if k' = k then some (((gs.lookup k).getD []) ++ [m]) else gs.lookup k' := by
  induction gs with
  | nil =>
    by_cases h : k' = k
    · subst h
      simp [addToGroups]
    · have hb : (k' == k) = false := beq_eq_false_iff_ne.mpr h
      simp [addToGroups, List.lookup_cons, hb, h]
  | cons p rest ih =>
    obtain ⟨k0, l0⟩ := p
    by_cases h0 : k0 = k
    · subst h0
      rw [addToGroups, if_pos rfl]
      by_cases h' : k' = k0
      · subst h'
        simp [List.lookup_cons]
      · have hb : (k' == k0) = false := beq_eq_false_iff_ne.mpr h'
        simp [List.lookup_cons, hb, h']
    · rw [addToGroups, if_neg h0]
      by_cases h' : k' = k0
      · subst h'
        simp only [List.lookup_cons, beq_self_eq_true]
        rw [if_neg h0]
      · have hb : (k' == k0) = false := beq_eq_false_iff_ne.mpr h'
        simp only [List.lookup_cons, hb]
        rw [ih]
        by_cases hk : k' = k
        · subst hk
          rw [if_pos rfl, if_pos rfl]
          simp [List.lookup_cons, hb]
        · rw [if_neg hk, if_neg hk]

theorem sum_addToGroups (gs : List (String × List Municipio)) (k : String) (m : Municipio) :
    ((addToGroups gs k m).map (fun p => p.2.length)).sum =
      ((gs.map (fun p => p.2.length)).sum) + 1 := by
  induction gs with
  | nil => simp [addToGroups]
  | cons p rest ih =>
    obtain ⟨k0, l0⟩ := p
    by_cases h0 : k0 = k
    · subst h0
      simp [addToGroups]
      omega
    · rw [addToGroups, if_neg h0]
      simp only [List.map_cons, List.sum_cons, ih]
      omega

theorem lookup_foldl_some (ms : List Municipio) :
    ∀ (gs : List (String × List Municipio)) (k : String) (l : List Municipio),
    gs.lookup k = some l →
    (ms.foldl (fun gs m => addToGroups gs (normKey m) m) gs).lookup k =
      some (l ++ ms.filter (fun m => normKey m == k)) := by
  induction ms with
  | nil =>
    intro gs k l h
    simpa using h
  | cons m ms ih =>
    intro gs k l h
    simp only [List.foldl_cons]
    by_cases hk : normKey m = k
    · have h1 : (addToGroups gs (normKey m) m).lookup k = some (l ++ [m]) := by
        rw [lookup_addToGroups, if_pos hk.symm, hk, h]
        rfl
      rw [ih _ k (l ++ [m]) h1]
      have hf : (m :: ms).filter (fun x => normKey x == k) =
          m :: ms.filter (fun x => normKey x == k) := by
        simp [List.filter_cons, hk]
      rw [hf, List.append_assoc]
      rfl
    · have h1 : (addToGroups gs (normKey m) m).lookup k = some l := by
        rw [lookup_addToGroups, if_neg fun he => hk he.symm, h]
      have hf : (m :: ms).filter (fun x => normKey x == k) =
          ms.filter (fun x => normKey x == k) := by
        simp [List.filter_cons, beq_eq_false_iff_ne.mpr hk]
      rw [hf]
      exact ih _ k l h1

theorem lookup_foldl_none (ms : List Municipio) :
    ∀ (gs : List (String × List Municipio)) (k : String),
    gs.lookup k = none →
    (ms.foldl (fun gs m => addToGroups gs (normKey m) m) gs).lookup k =
      if ms.filter (fun m => normKey m == k) = [] then none
      else some (ms.filter (fun m => normKey m == k)) := by
  induction ms with
  | nil =>
    intro gs k h
    simpa using h
  | cons m ms ih =>
    intro gs k h
    simp only [List.foldl_cons]
    by_cases hk : normKey m = k
    · have h1 : (addToGroups gs (normKey m) m).lookup k = some [m] := by
        rw [lookup_addToGroups, if_pos hk.symm, hk, h]
        rfl
      rw [lookup_foldl_some ms _ k [m] h1]
      have hf : (m :: ms).filter (fun x => normKey x == k) =
          m :: ms.filter (fun x => normKey x == k) := by
        simp [List.filter_cons, hk]
      rw [hf, if_neg (by simp)]
      rfl
    · have h1 : (addToGroups gs (normKey m) m).lookup k = none := by
        rw [lookup_addToGroups, if_neg fun he => hk he.symm, h]
      have hf : (m :: ms).filter (fun x => normKey x == k) =
          ms.filter (fun x => normKey x == k) := by
        simp [List.filter_cons, beq_eq_false_iff_ne.mpr hk]
      rw [hf]
      exact ih _ k h1

/-- The group stored under key `k` is exactly the sublist of municipios
whose normalized name is `k`, in registry order, and the key is present
exactly when that sublist is nonempty. -/
theorem lookup_buildGroups (ms : List Municipio) (k : String) :
    (buildGroups ms).lookup k =
      if ms.filter (fun m => normKey m == k) = [] then none
      else some (ms.filter (fun m => normKey m == k)) :=
  lookup_foldl_none ms [] k rfl

theorem sum_foldl_groups (ms : List Municipio) :
    ∀ gs : List (String × List Municipio),
    ((ms.foldl (fun gs m => addToGroups gs (normKey m) m) gs).map (fun p => p.2.length)).sum =
      ((gs.map (fun p => p.2.length)).sum) + ms.length := by
  induction ms with
  | nil =>
    intro gs
    simp
  | cons m ms ih =>
    intro gs
    simp only [List.foldl_cons, List.length_cons]
    rw [ih, sum_addToGroups]
    omega

theorem mem_dedupFirst (l : List String) :
    ∀ (seen : List String) (x : String), x ∈ dedupFirst seen l ↔ x ∈ l ∧ x ∉ seen := by
  induction l with
  | nil =>
    intro seen x
    simp [dedupFirst]
  | cons y ys ih =>
    intro seen x
    by_cases hy : seen.contains y = true
    · rw [dedupFirst, if_pos hy]
      rw [ih]
      have hymem : y ∈ seen := by simpa [List.elem_iff] using hy
      constructor
      · rintro ⟨hx, hns⟩
        exact ⟨List.mem_cons_of_mem _ hx, hns⟩
      · rintro ⟨hx, hns⟩
        rcases List.mem_cons.mp hx with rfl | hx'
        · exact absurd hymem hns
        · exact ⟨hx', hns⟩
    · rw [dedupFirst, if_neg hy]
      have hynot : y ∉ seen := fun hmem => hy (by simpa [List.elem_iff] using hmem)
      constructor
      · intro hx
        rcases List.mem_cons.mp hx with rfl | hx'
        · exact ⟨List.mem_cons_self _ _, hynot⟩
        · obtain ⟨h1, h2⟩ := (ih (y :: seen) x).mp hx'
          exact ⟨List.mem_cons_of_mem _ h1, fun hseen => h2 (List.mem_cons_of_mem _ hseen)⟩
      · rintro ⟨hx, hns⟩
        by_cases hxy : x = y
        · subst hxy
          exact List.mem_cons_self _ _
        · rcases List.mem_cons.mp hx with rfl | hx'
          · exact absurd rfl hxy
          · refine List.mem_cons_of_mem _ ((ih (y :: seen) x).mpr ⟨hx', ?_⟩)
            intro hseen
            rcases List.mem_cons.mp hseen with rfl | hseen'
            · exact hxy rfl
            · exact hns hseen'

theorem nodup_dedupFirst (l : List String) :
    ∀ seen : List String, (dedupFirst seen l).Nodup := by
  induction l with
  | nil =>
    intro seen
    simp [dedupFirst]
  | cons y ys ih =>
    intro seen
    by_cases hy : seen.contains y = true
    · rw [dedupFirst, if_pos hy]
      exact ih seen
    · rw [dedupFirst, if_neg hy]
      refine List.nodup_cons.mpr ⟨?_, ih (y :: seen)⟩
      intro hmem
      exact ((mem_dedupFirst ys (y :: seen) y).mp hmem).2 (List.mem_cons_self _ _)

/-- Claim C8: index construction places each entry in exactly one
key-group (its own normalized name's group), the total record count over
all key-groups equals the input count, and the candidate-key pool holds
each distinct normalized key exactly once. -/
theorem index_construction_invariants (ms : List Municipio) :
    ((((IbgeIndex.init ms).name_to_municipios).map (fun p => p.2.length)).sum = ms.length) ∧
    (∀ k g, ((IbgeIndex.init ms).name_to_municipios).lookup k = some g →
      g = ms.filter (fun m => normKey m == k)) ∧
    (∀ m ∈ ms, ∃ g, ((IbgeIndex.init ms).name_to_municipios).lookup (normKey m) = some g ∧
      m ∈ g) ∧
    ((IbgeIndex.init ms).normalized_names.Nodup) ∧
    (∀ k, k ∈ (IbgeIndex.init ms).normalized_names ↔ k ∈ ms.map normKey) := by
  refine ⟨?_, ?_, ?_, ?_, ?_⟩
  · have := sum_foldl_groups ms []
    simpa [IbgeIndex.init, buildGroups] using this
  · intro k g hg
    have := lookup_buildGroups ms k
    rw [show (IbgeIndex.init ms).name_to_municipios = buildGroups ms from rfl] at hg
    rw [this] at hg
    by_cases hf : ms.filter (fun m => normKey m == k) = []
    · rw [if_pos hf] at hg
      cases hg
    · rw [if_neg hf] at hg
      exact (Option.some.injEq _ _ ▸ hg).symm
  · intro m hm
    have hmem : m ∈ ms.filter (fun x => normKey x == normKey m) :=
      List.mem_filter.mpr ⟨hm, by simp⟩
    have hf : ms.filter (fun x => normKey x == normKey m) ≠ [] :=
      List.ne_nil_of_mem hmem
    refine ⟨ms.filter (fun x => normKey x == normKey m), ?_, hmem⟩
    rw [show (IbgeIndex.init ms).name_to_municipios = buildGroups ms from rfl,
      lookup_buildGroups, if_neg hf]
  · exact nodup_dedupFirst _ []
  · intro k
    rw [show (IbgeIndex.init ms).normalized_names = dedupFirst [] (ms.map normKey) from rfl,
      mem_dedupFirst]
    simp

/-- Concrete instantiation of `index_construction_invariants` at a
one-record registry. -/
theorem index_construction_invariants_witness :
    ((((IbgeIndex.init [curitibaRec]).name_to_municipios).map (fun p => p.2.length)).sum = 1) ∧
    ([curitibaRec] : List Municipio) =
      [curitibaRec].filter (fun m => normKey m == "curitiba") := by
  have h := index_construction_invariants [curitibaRec]
  exact ⟨h.1, h.2.1 "curitiba" [curitibaRec] (by decide)⟩

/-- Claim C1: with exactly two records both normalizing to
`"santo andre"`, one resolving to the preferred region (`"Sudeste"`, the
spec's "Southeast") and one to `"Sul"` ("South"), `match("Santo André")`
returns `FOUND` with the preferred-region record for both registry
orders. -/
theorem santo_andre_preferred_region (m1 m2 : Municipio)
    (hn1 : normKey m1 = "santo andre") (hn2 : normKey m2 = "santo andre")
    (hr1 : regiaoNome m1 = "Sudeste") (hr2 : regiaoNome m2 = "Sul") :
    ((IbgeIndex.init [m1, m2]).match "Santo André").1 = ("OK", m1) ∧
    ((IbgeIndex.init [m2, m1]).match "Santo André").1 = ("OK", m1) := by
  have hnorm : normalizeStr "Santo André" = "santo andre" := by decide
  have hfind1 : List.find? (fun x => regiaoNome x == "Sudeste") [m1, m2] = some m1 :=
    List.find?_cons_of_pos _ (by simp [hr1])
  have hfind2 : List.find? (fun x => regiaoNome x == "Sudeste") [m2, m1] = some m1 := by
    rw [List.find?_cons_of_neg _ (by simp [hr2])]
    exact List.find?_cons_of_pos _ (by simp [hr1])
  constructor
  · have hgroups : (IbgeIndex.init [m1, m2]).name_to_municipios =
        [("santo andre", [m1, m2])] := by
      simp [IbgeIndex.init, buildGroups, addToGroups, hn1, hn2]
    rw [IbgeIndex.match, hnorm, hgroups]
    simp only [List.lookup_cons, beq_self_eq_true]
    rw [choose_preferred_municipio, hfind1]
    rfl
  · have hgroups : (IbgeIndex.init [m2, m1]).name_to_municipios =
        [("santo andre", [m2, m1])] := by
      simp [IbgeIndex.init, buildGroups, addToGroups, hn1, hn2]
    rw [IbgeIndex.match, hnorm, hgroups]
    simp only [List.lookup_cons, beq_self_eq_true]
    rw [choose_preferred_municipio, hfind2]
    rfl

/-- Concrete instantiation of `santo_andre_preferred_region` at the two
sample Santo André records. -/
theorem santo_andre_preferred_region_witness :
    ((IbgeIndex.init [saSudeste, saSul]).match "Santo André").1 = ("OK", saSudeste) ∧
    ((IbgeIndex.init [saSul, saSudeste]).match "Santo André").1 = ("OK", saSudeste) :=
  santo_andre_preferred_region saSudeste saSul (by decide) (by decide)
    (by decide) (by decide)

/-- Claim C2: when the normalized key is present, a singleton group is
returned directly and a larger group is resolved by the Disambiguator,
both with status `FOUND`; in particular a one-record "Curitiba" registry
matches `"Curitiba"`, `"curitiba"` and `"CURITIBA"` to that record. -/
theorem exact_stage_match (idx : IbgeIndex) (inp : String) (lista : List Municipio)
    (h : List.lookup (normalizeStr inp) idx.name_to_municipios = some lista) :
    ((∀ m : Municipio, lista = [m] → (idx.match inp).1 = ("OK", m)) ∧
      (1 < lista.length → (idx.match inp).1 = ("OK", choose_preferred_municipio lista))) ∧
    (∀ m : Municipio, normKey m = "curitiba" →
      ((IbgeIndex.init [m]).match "Curitiba").1 = ("OK", m) ∧
      ((IbgeIndex.init [m]).match "curitiba").1 = ("OK", m) ∧
      ((IbgeIndex.init [m]).match "CURITIBA").1 = ("OK", m)) := by
  constructor
  · constructor
    · rintro m rfl
      rw [IbgeIndex.match, h]
      simp
    · intro hlen
      rw [IbgeIndex.match, h]
      have : ¬ lista.length = 1 := by omega
      simp [this]
  · intro m hm
    have hgroups : (IbgeIndex.init [m]).name_to_municipios = [("curitiba", [m])] := by
      simp [IbgeIndex.init, buildGroups, addToGroups, hm]
    have h1 : normalizeStr "Curitiba" = "curitiba" := by decide
    have h2 : normalizeStr "curitiba" = "curitiba" := by decide
    have h3 : normalizeStr "CURITIBA" = "curitiba" := by decide
    refine ⟨?_, ?_, ?_⟩
    · rw [IbgeIndex.match, h1, hgroups]
      simp [List.lookup_cons]
    · rw [IbgeIndex.match, h2, hgroups]
      simp [List.lookup_cons]
    · rw [IbgeIndex.match, h3, hgroups]
      simp [List.lookup_cons]

/-- Concrete instantiation of `exact_stage_match` at a one-record
registry. -/
theorem exact_stage_match_witness :
    ((IbgeIndex.init [curitibaRec]).match "Curitiba").1 = ("OK", curitibaRec) :=
  (exact_stage_match (IbgeIndex.init [curitibaRec]) "Curitiba" [curitibaRec]
    (by decide)).1.1 curitibaRec rfl

/-- Concrete instantiation of `choose_preferred_spec`: with no
preferred-region record, the first record in registry order wins. -/
theorem choose_preferred_spec_witness :
    choose_preferred_municipio ([saSul] ++ saSudeste :: []) = saSudeste ∧
    choose_preferred_municipio [curitibaRec, saSul] = curitibaRec := by
  constructor
  · exact (choose_preferred_spec [saSul] [] [] saSudeste).1 (by decide) (by decide)
  · exact (choose_preferred_spec [] [] [curitibaRec, saSul] saSul).2 (by simp) (by decide)

/-! ## The candidate ordering is total and transitive -/

theorem lexLe_refl : ∀ a : List Char, lexLe a a = true
  | [] => rfl
  | c :: cs => by
    rw [lexLe, if_neg (by omega), if_neg (by omega)]
    exact lexLe_refl cs

theorem lexLe_total : ∀ a b : List Char, lexLe a b = true ∨ lexLe b a = true
  | [], _ => Or.inl rfl
  | _ :: _, [] => Or.inr rfl
  | a :: as, b :: bs => by
    by_cases hab : a.toNat < b.toNat
    · left
      rw [lexLe, if_pos hab]
    · by_cases hba : b.toNat < a.toNat
      · right
        rw [lexLe, if_pos hba]
      · rcases lexLe_total as bs with h | h
        · left
          rw [lexLe, if_neg hab, if_neg hba]
          exact h
        · right
          rw [lexLe, if_neg hba, if_neg hab]
          exact h

theorem lexLe_trans : ∀ a b c : List Char,
    lexLe a b = true → lexLe b c = true → lexLe a c = true
  | [], _, _, _, _ => rfl
  | a :: as, [], _, hab, _ => by cases hab
  | a :: as, b :: bs, [], _, hbc => by cases hbc
  | a :: as, b :: bs, c :: cs, hab, hbc => by
    rw [lexLe] at hab hbc ⊢
    by_cases h1 : a.toNat < b.toNat
    · by_cases h2 : b.toNat < c.toNat
      · rw [if_pos (by omega)]
      · rw [if_pos h1] at hab
        by_cases h3 : c.toNat < b.toNat
        · rw [if_neg h2, if_pos h3] at hbc
          cases hbc
        · have : b.toNat = c.toNat := by omega
          rw [if_pos (by omega)]
    · by_cases h1' : b.toNat < a.toNat
      · rw [if_neg h1, if_pos h1'] at hab
        cases hab
      · have hab' : a.toNat = b.toNat := by omega
        rw [if_neg h1, if_neg h1'] at hab
        by_cases h2 : b.toNat < c.toNat
        · rw [if_pos (by omega)]
        · by_cases h3 : c.toNat < b.toNat
          · rw [if_neg h2, if_pos h3] at hbc
            cases hbc
          · rw [if_neg h2, if_neg h3] at hbc
            rw [if_neg (by omega), if_neg (by omega)]
            exact lexLe_trans as bs cs hab hbc

instance : IsTotal (Rat × String) keyGE := by
  constructor
  intro p q
  rcases lt_trichotomy p.1 q.1 with h | h | h
  · exact Or.inr (Or.inl h)
  · rcases lexLe_total p.2.data q.2.data with hl | hl
    · exact Or.inr (Or.inr ⟨h.symm, hl⟩)
    · exact Or.inl (Or.inr ⟨h, hl⟩)
  · exact Or.inl (Or.inl h)

instance : IsTrans (Rat × String) keyGE := by
  constructor
  rintro p q r (h1 | ⟨h1, hl1⟩) (h2 | ⟨h2, hl2⟩)
  · exact Or.inl (h2.trans h1)
  · exact Or.inl (h2 ▸ h1)
  · exact Or.inl (lt_of_lt_of_eq h2 h1.symm)
  · exact Or.inr ⟨h1.trans h2, lexLe_trans _ _ _ hl2 hl1⟩

/-- `keyGE` holds reflexively. -/
theorem keyGE_refl (p : Rat × String) : keyGE p p :=
  Or.inr ⟨rfl, lexLe_refl _⟩

/-- A `keyGE`-greater pair has a score at least as large. -/
theorem keyGE_score {p q : Rat × String} (h : keyGE p q) : q.1 ≤ p.1 := by
  rcases h with h | ⟨h, -⟩
  · exact le_of_lt h
  · exact le_of_eq h.symm

/-! ## Structure of `getCloseMatches` -/

/-- Every pair retained for sorting is `(score, candidate)` with the
candidate drawn from the pool and its score clearing the cutoff. -/
theorem mem_scored {word : String} {possibilities : List String} {cutoff : Rat}
    {p : Rat × String}
    (h : p ∈ possibilities.filterMap (fun x =>
      if cutoff ≤ simRatio x word then some (simRatio x word, x) else none)) :
    p.2 ∈ possibilities ∧ p.1 = simRatio p.2 word ∧ cutoff ≤ p.1 := by
  obtain ⟨x, hx, hfx⟩ := List.mem_filterMap.mp h
  by_cases hc : cutoff ≤ simRatio x word
  · rw [if_pos hc] at hfx
    cases hfx
    exact ⟨hx, rfl, hc⟩
  · rw [if_neg hc] at hfx
    cases hfx

/-- Every candidate `get_close_matches` returns is in the pool. -/
theorem mem_getCloseMatches {word : String} {possibilities : List String}
    {n : Nat} {cutoff : Rat} {x : String}
    (h : x ∈ getCloseMatches word possibilities n cutoff) : x ∈ possibilities := by
  rw [getCloseMatches] at h
  obtain ⟨p, hp, rfl⟩ := List.mem_map.mp h
  have hp' : p ∈ List.insertionSort keyGE (possibilities.filterMap fun x =>
      if cutoff ≤ simRatio x word then some (simRatio x word, x) else none) :=
    List.take_subset _ _ hp
  have := (List.perm_insertionSort keyGE _).mem_iff.mp hp'
  exact (mem_scored this).1

/-- The head of `get_close_matches` clears the cutoff and scores at least
as high as every pool member that clears the cutoff. -/
theorem getCloseMatches_head {word : String} {possibilities : List String}
    {n : Nat} {cutoff : Rat} {best : String} {rest : List String}
    (h : getCloseMatches word possibilities n cutoff = best :: rest) :
    best ∈ possibilities ∧ cutoff ≤ simRatio best word ∧
      ∀ k ∈ possibilities, cutoff ≤ simRatio k word →
        simRatio k word ≤ simRatio best word := by
  rw [getCloseMatches] at h
  cases hs : List.insertionSort keyGE (possibilities.filterMap fun x =>
      if cutoff ≤ simRatio x word then some (simRatio x word, x) else none) with
  | nil =>
    rw [hs] at h
    simp at h
  | cons p t =>
    rw [hs] at h
    cases n with
    | zero => simp at h
    | succ n' =>
      simp only [List.take_succ_cons, List.map_cons, List.cons.injEq] at h
      obtain ⟨rfl, -⟩ := h
      have hpmem : p ∈ List.insertionSort keyGE (possibilities.filterMap fun x =>
          if cutoff ≤ simRatio x word then some (simRatio x word, x) else none) := by
        rw [hs]
        exact List.mem_cons_self _ _
      have hpsc := mem_scored ((List.perm_insertionSort keyGE _).mem_iff.mp hpmem)
      refine ⟨hpsc.1, hpsc.2.1 ▸ hpsc.2.2, ?_⟩
      intro k hk hck
      have hkmem : (simRatio k word, k) ∈ possibilities.filterMap fun x =>
          if cutoff ≤ simRatio x word then some (simRatio x word, x) else none :=
        List.mem_filterMap.mpr ⟨k, hk, by rw [if_pos hck]⟩
      have hsorted := List.sorted_insertionSort keyGE (possibilities.filterMap fun x =>
        if cutoff ≤ simRatio x word then some (simRatio x word, x) else none)
      rw [hs] at hsorted
      have hkmem' : (simRatio k word, k) ∈ p :: t := by
        rw [← hs]
        exact (List.perm_insertionSort keyGE _).mem_iff.mpr hkmem
      have hge : keyGE p (simRatio k word, k) := by
        rcases List.mem_cons.mp hkmem' with he | ht
        · rw [he]
          exact keyGE_refl p
        · exact List.rel_of_sorted_cons hsorted _ ht
      have hle := keyGE_score hge
      rw [hpsc.2.1] at hle
      simpa using hle

/-- A key in the candidate pool of a constructed index is present in the
group map, with a nonempty group. -/
theorem lookup_init_of_mem_names {ms : List Municipio} {b : String}
    (hb : b ∈ (IbgeIndex.init ms).normalized_names) :
    ∃ g, List.lookup b (IbgeIndex.init ms).name_to_municipios = some g ∧ g ≠ [] := by
  have hkey : b ∈ ms.map normKey :=
    ((mem_dedupFirst (ms.map normKey) [] b).mp hb).1
  obtain ⟨m, hm, hmk⟩ := List.mem_map.mp hkey
  have hmem : m ∈ ms.filter (fun x => normKey x == b) :=
    List.mem_filter.mpr ⟨hm, by simp [hmk]⟩
  have hf : ms.filter (fun x => normKey x == b) ≠ [] := List.ne_nil_of_mem hmem
  refine ⟨ms.filter (fun x => normKey x == b), ?_, hf⟩
  rw [show (IbgeIndex.init ms).name_to_municipios = buildGroups ms from rfl,
    lookup_buildGroups, if_neg hf]

/-- A group looked up in a constructed index is the registry-order
sublist with that normalized key, and is nonempty. -/
theorem lookup_init_eq_filter {ms : List Municipio} {k : String} {g : List Municipio}
    (h : List.lookup k (IbgeIndex.init ms).name_to_municipios = some g) :
    g = ms.filter (fun x => normKey x == k) ∧ g ≠ [] := by
  rw [show (IbgeIndex.init ms).name_to_municipios = buildGroups ms from rfl,
    lookup_buildGroups] at h
  by_cases hf : ms.filter (fun x => normKey x == k) = []
  · rw [if_pos hf] at h
    cases h
  · rw [if_neg hf] at h
    cases h
    exact ⟨rfl, hf⟩

/-- Claim C9: `match` on a constructed index leaves the index unchanged —
the raw collection, the key-group map and the candidate pool are the same
after any call, so any sequence of `match` calls keeps the index as
built. (The defaultdict subscript in the approximate stage could insert a
key, but the key it subscripts always comes from the candidate pool and
is therefore already present.) -/
theorem match_preserves_index (ms : List Municipio) (inp : String) :
    ((IbgeIndex.init ms).match inp).2 = IbgeIndex.init ms := by
  rw [IbgeIndex.match]
  split
  · split <;> rfl
  · split
    · rfl
    · rename_i best tail hcand
      split
      · split <;> rfl
      · rename_i hnone
        exfalso
        have hbest : best ∈ getCloseMatches (normalizeStr inp)
            (IbgeIndex.init ms).normalized_names 3 fuzzyCutoff := by
          rw [hcand]
          exact List.mem_cons_self _ _
        obtain ⟨g, hg, -⟩ := lookup_init_of_mem_names (mem_getCloseMatches hbest)
        rw [hg] at hnone
        cases hnone

/-- Claim C4 (amended): when the normalized key is absent and no
candidate key of the pool reaches similarity 0.75 with it, `match`
returns `NOT_FOUND` with the empty record. (The converse direction of
the original claim fails: see `match_notfound_iff_counterexample` — a
candidate above the threshold whose group is ambiguous also produces
`NOT_FOUND`.) -/
theorem match_notfound_of_no_candidate (ms : List Municipio) (inp : String)
    (h1 : List.lookup (normalizeStr inp) (IbgeIndex.init ms).name_to_municipios = none)
    (h2 : ∀ k ∈ (IbgeIndex.init ms).normalized_names,
      simRatio k (normalizeStr inp) < fuzzyCutoff) :
    ((IbgeIndex.init ms).match inp).1 = ("NAO_ENCONTRADO", emptyMuni) := by
  have hnil : (IbgeIndex.init ms).normalized_names.filterMap (fun x =>
      if fuzzyCutoff ≤ simRatio x (normalizeStr inp) then
        some (simRatio x (normalizeStr inp), x) else none) = [] := by
    rw [List.filterMap_eq_nil_iff]
    intro a ha
    rw [if_neg (not_le.mpr (h2 a ha))]
  have hcand : getCloseMatches (normalizeStr inp) (IbgeIndex.init ms).normalized_names 3
      fuzzyCutoff = [] := by
    rw [getCloseMatches, hnil]
    rfl
  rw [IbgeIndex.match, h1, hcand]

/-- Concrete instantiation of `match_notfound_of_no_candidate`: "Rio" is
nowhere near "curitiba". -/
theorem match_notfound_of_no_candidate_witness :
    ((IbgeIndex.init [curitibaRec]).match "Rio").1 = ("NAO_ENCONTRADO", emptyMuni) :=
  match_notfound_of_no_candidate [curitibaRec] "Rio" (by decide) (by decide)

/-- Claim C4 counterexample: with two records both named "Santo André"
and input "Santo Andree", the (sole) candidate key clears the 0.75
threshold and yet `match` returns `NOT_FOUND`, refuting the claimed
equivalence at this input. -/
theorem match_notfound_iff_counterexample :
    (List.lookup (normalizeStr "Santo Andree")
      (IbgeIndex.init [saSudeste, saSul]).name_to_municipios = none) ∧
    ¬ ((((IbgeIndex.init [saSudeste, saSul]).match "Santo Andree").1 =
          ("NAO_ENCONTRADO", emptyMuni)) ↔
        (∀ k ∈ (IbgeIndex.init [saSudeste, saSul]).normalized_names,
          simRatio k (normalizeStr "Santo Andree") < fuzzyCutoff)) := by
  decide

/-- Claim C5: when the exact stage misses and some candidate clears the
threshold, the head candidate is a retained pool key of maximal score;
if its group has exactly one record `match` returns `FOUND` with it, and
if the group has more than one record `match` returns `NOT_FOUND` with
the empty record. -/
theorem approx_stage_best (ms : List Municipio) (inp : String) (best : String)
    (rest : List String)
    (h1 : List.lookup (normalizeStr inp) (IbgeIndex.init ms).name_to_municipios = none)
    (h2 : getCloseMatches (normalizeStr inp) (IbgeIndex.init ms).normalized_names 3
      fuzzyCutoff = best :: rest) :
    (best ∈ (IbgeIndex.init ms).normalized_names ∧
      fuzzyCutoff ≤ simRatio best (normalizeStr inp) ∧
      ∀ k ∈ (IbgeIndex.init ms).normalized_names,
        fuzzyCutoff ≤ simRatio k (normalizeStr inp) →
          simRatio k (normalizeStr inp) ≤ simRatio best (normalizeStr inp)) ∧
    (∀ g, List.lookup best (IbgeIndex.init ms).name_to_municipios = some g →
      ((∀ m : Municipio, g = [m] → ((IbgeIndex.init ms).match inp).1 = ("OK", m)) ∧
        (1 < g.length →
          ((IbgeIndex.init ms).match inp).1 = ("NAO_ENCONTRADO", emptyMuni)))) := by
  constructor
  · exact getCloseMatches_head h2
  · intro g hg
    constructor
    · rintro m rfl
      rw [IbgeIndex.match, h1, h2]
      simp [hg]
    · intro hlen
      rw [IbgeIndex.match, h1, h2]
      have hne1 : ¬ g.length = 1 := by omega
      simp [hg, hne1]

/-- Concrete instantiation of `approx_stage_best`: the typo "Curitba"
fuzzy-matches the singleton "curitiba" group. -/
theorem approx_stage_best_witness :
    ((IbgeIndex.init [curitibaRec]).match "Curitba").1 = ("OK", curitibaRec) :=
  ((approx_stage_best [curitibaRec] "Curitba" "curitiba" [] (by decide) (by decide)).2
    [curitibaRec] (by decide)).1 curitibaRec rfl

/-- Claim C10: a `FOUND` result always carries a record of the raw
registry collection; a `NOT_FOUND` result carries the empty record; and
every candidate the approximate stage can select is an index key whose
group is nonempty. -/
theorem match_result_sound (ms : List Municipio) (inp : String) :
    ((((IbgeIndex.init ms).match inp).1.1 = "OK" →
        ((IbgeIndex.init ms).match inp).1.2 ∈ ms) ∧
      (((IbgeIndex.init ms).match inp).1.1 = "NAO_ENCONTRADO" →
        ((IbgeIndex.init ms).match inp).1.2 = emptyMuni)) ∧
    (∀ b ∈ getCloseMatches (normalizeStr inp) (IbgeIndex.init ms).normalized_names 3
        fuzzyCutoff,
      ∃ g, List.lookup b (IbgeIndex.init ms).name_to_municipios = some g ∧ g ≠ []) := by
  constructor
  · rw [IbgeIndex.match]
    split
    · rename_i lista hl
      obtain ⟨hg, hne⟩ := lookup_init_eq_filter hl
      have hsub : ∀ x ∈ lista, x ∈ ms := by
        intro x hx
        rw [hg] at hx
        exact (List.mem_filter.mp hx).1
      split
      · constructor
        · intro _
          cases lista with
          | nil => exact absurd rfl hne
          | cons x xs => exact hsub x (List.mem_cons_self _ _)
        · intro habs
          simp at habs
      · constructor
        · intro _
          exact hsub _ (choose_preferred_mem hne)
        · intro habs
          simp at habs
    · split
      · exact ⟨fun habs => by simp at habs, fun _ => rfl⟩
      · rename_i best tail hcand
        split
        · rename_i lista hl
          obtain ⟨hg, hne⟩ := lookup_init_eq_filter hl
          have hsub : ∀ x ∈ lista, x ∈ ms := by
            intro x hx
            rw [hg] at hx
            exact (List.mem_filter.mp hx).1
          split
          · constructor
            · intro _
              cases lista with
              | nil => exact absurd rfl hne
              | cons x xs => exact hsub x (List.mem_cons_self _ _)
            · intro habs
              simp at habs
          · exact ⟨fun habs => by simp at habs, fun _ => rfl⟩
        · exact ⟨fun habs => by simp at habs, fun _ => rfl⟩
  · intro b hb
    exact lookup_init_of_mem_names (mem_getCloseMatches hb)

/-! ## The fuel bound in `matchingTotal` is exact

`matchingTotal` runs `matchingTotalF` with fuel `a.length`. The block
found at each step is contained in both strings
(`findLongestMatch_bounds`), so each recursive call strictly shrinks the
first string and any fuel at least `a.length` computes the same value
(`matchingTotalF_congr`): the fuel never truncates the recursion. -/

theorem commonLen_le_left : ∀ a b : List Char, commonLen a b ≤ a.length
  | [], _ => by simp [commonLen]
  | _ :: _, [] => by simp [commonLen]
  | a :: as, b :: bs => by
    rw [commonLen]
    by_cases h : a = b
    · rw [if_pos h]
      have := commonLen_le_left as bs
      simp only [List.length_cons]
      omega
    · rw [if_neg h]
      simp

theorem commonLen_le_right : ∀ a b : List Char, commonLen a b ≤ b.length
  | [], _ => by simp [commonLen]
  | _ :: _, [] => by simp [commonLen]
  | a :: as, b :: bs => by
    rw [commonLen]
    by_cases h : a = b
    · rw [if_pos h]
      have := commonLen_le_right as bs
      simp only [List.length_cons]
      omega
    · rw [if_neg h]
      simp

theorem foldl_invariant {α β : Type} (P : β → Prop) (f : β → α → β) (l : List α)
    (init : β) (h0 : P init) (hstep : ∀ b a, P b → P (f b a)) : P (l.foldl f init) := by
  induction l generalizing init with
  | nil => exact h0
  | cons x xs ih => exact ih _ (hstep _ _ h0)

theorem findLongestMatch_bounds (a b : List Char) :
    (findLongestMatch a b).2.2 ≠ 0 →
      (findLongestMatch a b).1 + (findLongestMatch a b).2.2 ≤ a.length ∧
      (findLongestMatch a b).2.1 + (findLongestMatch a b).2.2 ≤ b.length := by
  rw [findLongestMatch]
  refine foldl_invariant
    (fun best : Nat × Nat × Nat => best.2.2 ≠ 0 →
      best.1 + best.2.2 ≤ a.length ∧ best.2.1 + best.2.2 ≤ b.length)
    _ _ _ (by simp) ?_
  intro best ij hbest
  dsimp only
  by_cases h : best.2.2 < commonLen (a.drop ij.1) (b.drop ij.2)
  · rw [if_pos h]
    intro _
    dsimp only
    have h1 : commonLen (a.drop ij.1) (b.drop ij.2) ≤ a.length - ij.1 := by
      have := commonLen_le_left (a.drop ij.1) (b.drop ij.2)
      simpa using this
    have h2 : commonLen (a.drop ij.1) (b.drop ij.2) ≤ b.length - ij.2 := by
      have := commonLen_le_right (a.drop ij.1) (b.drop ij.2)
      simpa using this
    constructor <;> omega
  · rw [if_neg h]
    exact hbest

theorem matchingTotalF_nil : ∀ (fuel : Nat) (b : List Char),
    matchingTotalF fuel [] b = 0 := by
  intro fuel b
  cases fuel with
  | zero => rfl
  | succ n => rfl

theorem matchingTotalF_congr : ∀ (fuel1 fuel2 : Nat) (a b : List Char),
    a.length ≤ fuel1 → a.length ≤ fuel2 →
    matchingTotalF fuel1 a b = matchingTotalF fuel2 a b := by
  intro fuel1
  induction fuel1 with
  | zero =>
    intro fuel2 a b h1 _
    have ha : a = [] := List.eq_nil_of_length_eq_zero (by omega)
    subst ha
    rw [matchingTotalF_nil, matchingTotalF_nil]
  | succ n ih =>
    intro fuel2 a b h1 h2
    cases fuel2 with
    | zero =>
      have ha : a = [] := List.eq_nil_of_length_eq_zero (by omega)
      subst ha
      rw [matchingTotalF_nil, matchingTotalF_nil]
    | succ m =>
      rcases hf : findLongestMatch a b with ⟨i, j, k⟩
      simp only [matchingTotalF, hf]
      by_cases hk : k = 0
      · rw [if_pos hk, if_pos hk]
      · rw [if_neg hk, if_neg hk]
        have hb := findLongestMatch_bounds a b
        rw [hf] at hb
        have hbk := hb hk
        dsimp only at hbk
        obtain ⟨hia, hjb⟩ := hbk
        have l1 : (a.take i).length ≤ n := by
          simp only [List.length_take]
          omega
        have l1' : (a.take i).length ≤ m := by
          simp only [List.length_take]
          omega
        have l2 : (a.drop (i + k)).length ≤ n := by
          simp only [List.length_drop]
          omega
        have l2' : (a.drop (i + k)).length ≤ m := by
          simp only [List.length_drop]
          omega
        rw [ih m _ _ l1 l1', ih m _ _ l2 l2']
